import Mathlib

/-!
Verification of the Sleep Outside cart/inventory/validation core.

The JavaScript source is shallowly embedded: JS strings are lists of
characters, JS numbers are integers (`Int`) where arithmetic matters,
possibly-absent object fields are `Option`, and the truthiness idiom
`x || d` on numbers is made explicit (`jsOrNum`).  Stateful manager
methods become pure functions from the persisted collection to the new
collection; the persist/notify side effects of the cart manager are
reified as an explicit effect trace.
-/

/-- A JavaScript string, modelled as its list of characters. -/
abbrev JStr := List Char

/-- The JavaScript expression `x || d` for a possibly-missing numeric field:
`undefined` and `0` are falsy and give the default, any other number is
returned as is. -/
def jsOrNum (x : Option Int) (d : Int) : Int :=
  match x with
  | none => d
  | some v => if v = 0 then d else v

/-- One entry of the persisted cart (`cartManager.mjs`).  Only the fields the
cart manager reads are modelled: `Id`, `Quantity` (may be absent on records
written by other code), and the two price fields consulted by
`getCartTotal` (`FinalPrice || Price || 0`). -/
structure CartItem where
  Id : JStr
  Quantity : Option Int
  FinalPrice : Option Int
  Price : Option Int
deriving DecidableEq, Repr

/-- The branch of `addToCart` taken when `findIndex(item => item.Id === product.Id)`
finds a match: the first item with the given id gets
`Quantity = (Quantity || 1) + 1`; `none` when no item matches. -/
def incQuantityFirst (id : JStr) : List CartItem → Option (List CartItem)
  | [] => none
  | item :: rest =>
    if item.Id = id then
      some ({ item with Quantity := some (jsOrNum item.Quantity 1 + 1) } :: rest)
    else
      (incQuantityFirst id rest).map (fun r => item :: r)

/-- `CartManager.addToCart`: falsy product returns the cart unchanged; an
existing line (first match on `Id`) gets its quantity bumped, otherwise the
product is appended with `Quantity = 1`. -/
def addToCart (cart : List CartItem) (product : Option CartItem) : List CartItem :=
  match product with
  | none => cart
  | some p =>
    match incQuantityFirst p.Id cart with
    | some updated => updated
    | none => cart ++ [{ p with Quantity := some 1 }]

/-- `CartManager.removeFromCart`: `cart.filter(item => item.Id !== productId)`. -/
def removeFromCart (cart : List CartItem) (productId : JStr) : List CartItem :=
  cart.filter (fun item => item.Id ≠ productId)

/-- `CartManager.updateQuantity`: `findIndex` on `Id`; when found, a quantity
`≤ 0` splices the line out and a positive quantity overwrites the line's
`Quantity`; when not found the cart is unchanged (it is still re-saved). -/
def updateQuantity (cart : List CartItem) (productId : JStr) (quantity : Int) :
    List CartItem :=
  match cart with
  | [] => []
  | item :: rest =>
    if item.Id = productId then
      if quantity ≤ 0 then rest
      else { item with Quantity := some quantity } :: rest
    else
      item :: updateQuantity rest productId quantity

/-- `CartManager.clearCart`: saves the empty list. -/
def clearCart : List CartItem := []

/-- `CartManager.getItemCount`: `reduce((count, item) => count + (item.Quantity || 1), 0)`. -/
def getItemCount (cart : List CartItem) : Int :=
  cart.foldl (fun count item => count + jsOrNum item.Quantity 1) 0

/-- The effective unit price `item.FinalPrice || item.Price || 0`
used by `getCartTotal`. -/
def itemPrice (item : CartItem) : Int :=
  jsOrNum item.FinalPrice (jsOrNum item.Price 0)

/-- `CartManager.getCartTotal`:
`reduce((total, item) => total + price * quantity, 0)` with
`price = FinalPrice || Price || 0` and `quantity = Quantity || 1`. -/
def getCartTotal (cart : List CartItem) : Int :=
  cart.foldl (fun total item => total + itemPrice item * jsOrNum item.Quantity 1) 0

/-- A mutating cart-manager call, for reachability statements. -/
inductive CartOp where
  | add (product : Option CartItem)
  | remove (productId : JStr)
  | update (productId : JStr) (quantity : Int)
  | clear
deriving Repr

/-- The cart produced by one mutating call on a given persisted cart. -/
def applyCartOp (cart : List CartItem) : CartOp → List CartItem
  | .add p => addToCart cart p
  | .remove id => removeFromCart cart id
  | .update id q => updateQuantity cart id q
  | .clear => clearCart

/-- The cart reached from the empty cart by a sequence of mutating calls. -/
def runCartOps (ops : List CartOp) : List CartItem :=
  ops.foldl applyCartOp []

/-- A cart line as the spec's data model describes it: quantity present
and at least 1. -/
def WellFormedItem (item : CartItem) : Prop :=
  ∃ q : Int, item.Quantity = some q ∧ 1 ≤ q

/-- The spec's cart invariant: every line has quantity ≥ 1 and ids are
pairwise distinct (at most one line per id). -/
def WellFormedCart (cart : List CartItem) : Prop :=
  (∀ item ∈ cart, WellFormedItem item) ∧ (cart.map CartItem.Id).Nodup

/-- An observable side effect of a mutating cart-manager call: a write of the
full collection to storage (`saveCart`), or the invocation of the subscriber
registered at a given index (`notifyListeners`). -/
inductive CartEffect where
  | persist (cart : List CartItem)
  | invoke (idx : Nat)
deriving DecidableEq, Repr

/-- The subscriber indices `listeners.forEach(callback => callback(data))`
actually reaches, for subscribers described by whether they throw: `forEach`
runs in registration order and an uncaught exception aborts the iteration, so
the invoked indices are every index up to and including the first throwing
one. -/
def invokedIndices (throws : List Bool) (start : Nat) : List Nat :=
  match throws with
  | [] => []
  | b :: rest => start :: (if b then [] else invokedIndices rest (start + 1))

/-- The effect trace of `notifyListeners` over the registered subscribers. -/
def notifyListenersEffects (throws : List Bool) : List CartEffect :=
  (invokedIndices throws 0).map CartEffect.invoke

/-- The effect trace of `saveCart`: one full rewrite of the collection. -/
def saveCartEffects (cart : List CartItem) : List CartEffect :=
  [CartEffect.persist cart]

/-- The effect trace of `addToCart`: a falsy product returns early with no
save and no notification; otherwise `saveCart` runs, then `notifyListeners`. -/
def addToCartEffects (cart : List CartItem) (product : Option CartItem)
    (throws : List Bool) : List CartEffect :=
  match product with
  | none => []
  | some p => saveCartEffects (addToCart cart (some p)) ++ notifyListenersEffects throws

/-- The effect trace of `removeFromCart`: save, then notify. -/
def removeFromCartEffects (cart : List CartItem) (productId : JStr)
    (throws : List Bool) : List CartEffect :=
  saveCartEffects (removeFromCart cart productId) ++ notifyListenersEffects throws

/-- The effect trace of `updateQuantity`: save, then notify. -/
def updateQuantityEffects (cart : List CartItem) (productId : JStr)
    (quantity : Int) (throws : List Bool) : List CartEffect :=
  saveCartEffects (updateQuantity cart productId quantity) ++ notifyListenersEffects throws

/-- The effect trace of `clearCart`: save the empty list, then notify. -/
def clearCartEffects (throws : List Bool) : List CartEffect :=
  saveCartEffects [] ++ notifyListenersEffects throws

/-- The characters matched by the JavaScript regex class `\s` that occur in
the validators' inputs (space, tab, line feed, carriage return, vertical tab,
form feed). -/
def isJsSpace (c : Char) : Bool :=
  c = ' ' || c = '\t' || c = '\n' || c = '\r' || c = '\x0b' || c = '\x0c'

/-- The numeric value of a decimal digit character; `none` for any other
character (where JS `parseInt` on the single character yields `NaN`). -/
def charDigitVal (c : Char) : Option Nat :=
  if '0' ≤ c ∧ c ≤ '9' then some (c.toNat - '0'.toNat) else none

/-- One step of the Luhn loop in `validateCardNumber`: the digit at 0-based
position `j` from the right is doubled when `j` is odd (`isEven` starts false
and flips each iteration), and 9 is subtracted when the doubled value
exceeds 9. -/
def luhnTransform (j : Nat) (d : Nat) : Nat :=
  if j % 2 = 1 then (if 9 < 2 * d then 2 * d - 9 else 2 * d) else d

/-- The Luhn sum accumulated by `validateCardNumber`: the digits are walked
from the rightmost, so each digit is transformed according to its position in
the reversed list. -/
def luhnTotal (digits : List Nat) : Nat :=
  (digits.reverse.enum.map (fun p => luhnTransform p.1 p.2)).sum

/-- The `cardNumber.replace(/\s/g, "")` step of `validateCardNumber`. -/
def cleanedCard (s : JStr) : JStr :=
  s.filter (fun c => !(isJsSpace c))

/-- The digit values of the cleaned card number (meaningful when every
cleaned character is a digit). -/
def cardDigits (s : JStr) : List Nat :=
  (cleanedCard s).map (fun c => c.toNat - '0'.toNat)

/-- The digit values of a list of characters, `none` as soon as one
character is not a digit (where the source's `parseInt` gives `NaN`, which
poisons the whole Luhn sum). -/
def digitValsOf : JStr → Option (List Nat)
  | [] => some []
  | c :: rest =>
    match charDigitVal c, digitValsOf rest with
    | some d, some ds => some (d :: ds)
    | _, _ => none

/-- `CheckoutValidator.validateCardNumber`: strip whitespace, reject cleaned
lengths outside 13–19 with the length message, then run the Luhn loop and
reject a sum not divisible by 10 with the invalid message.  A non-digit
character makes `parseInt` yield `NaN`, the sum `NaN`, and `NaN % 10 !== 0`
true, so that case is the invalid message as well (the `none` branch of
`digitValsOf`). -/
def validateCardNumber (cardNumber : JStr) : Option String :=
  let cleaned := cleanedCard cardNumber
  if cleaned.length < 13 ∨ 19 < cleaned.length then
    some "Credit card number must be 13-19 digits"
  else
    match digitValsOf cleaned with
    | none => some "Credit card number is invalid"
    | some ds =>
      if luhnTotal ds % 10 = 0 then none
      else some "Credit card number is invalid"

/-- The checkout rule table's regex for `expiryDate`,
`^(0[1-9]|1[0-2])\/\d{2}$`: exactly five characters, a strict two-digit month
01–12, a slash, and two digits of year. -/
def expiryPatternMatch (s : JStr) : Bool :=
  match s with
  | [a, b, sl, c, d] =>
    sl = '/' && c.isDigit && d.isDigit &&
      ((a = '0' && (b.isDigit && b ≠ '0')) || (a = '1' && (b = '0' || b = '1' || b = '2')))
  | _ => false

/-- JavaScript `String.prototype.split("/")` on the character list. -/
def splitOnSlash : JStr → List JStr
  | [] => [[]]
  | c :: rest =>
    if c = '/' then [] :: splitOnSlash rest
    else
      match splitOnSlash rest with
      | [] => [[c]]
      | g :: gs => (c :: g) :: gs

/-- JavaScript `parseInt(s, 10)` restricted to the shapes the expiry
validator feeds it: the value of the leading run of decimal digits, `none`
(`NaN`) when the string does not start with a digit. -/
def jsParseInt (s : JStr) : Option Nat :=
  let ds := s.takeWhile (fun c => c.isDigit)
  if ds.isEmpty then none
  else some (ds.foldl (fun acc c => 10 * acc + (c.toNat - '0'.toNat)) 0)

/-- The month field `parseInt(expiry.split("/")[0], 10)` reads, with `NaN`
collapsed to 0 (only used under the strict pattern, where the parse
succeeds). -/
def expiryMonth (s : JStr) : Nat :=
  (jsParseInt ((splitOnSlash s).headD [])).getD 0

/-- The year field `parseInt(expiry.split("/")[1], 10)` reads, with `NaN`
collapsed to 0 (only used under the strict pattern, where the parse
succeeds). -/
def expiryYear (s : JStr) : Nat :=
  (jsParseInt (((splitOnSlash s).drop 1).headD [])).getD 0

/-- `CheckoutValidator.validateExpiryDate`, with the ambient
`new Date()` made explicit as the current two-digit year and 1-based month.
The card is expired when `expireYear < currentYear` or
`expireYear === currentYear && expireMonth < currentMonth`; a `NaN` year
fails both comparisons (not expired), a `NaN` month with an equal year fails
the second (not expired). -/
def validateExpiryDate (currentYear currentMonth : Nat) (expiry : JStr) :
    Option String :=
  let parts := splitOnSlash expiry
  let em := jsParseInt (parts.headD [])
  let ey := jsParseInt ((parts.drop 1).headD [])
  let expired :=
    match ey with
    | none => false
    | some y =>
      y < currentYear ||
        (y = currentYear &&
          (match em with
           | none => false
           | some m => m < currentMonth))
  if expired then some "Card has expired" else none

/-- JavaScript `String.prototype.trim()` on the character list. -/
def jsTrim (s : JStr) : JStr :=
  ((s.dropWhile (fun c => isJsSpace c)).reverse.dropWhile (fun c => isJsSpace c)).reverse

/-- JavaScript `String.prototype.toLowerCase()` on the ASCII strings the
validators handle. -/
def toLowerStr (s : JStr) : JStr :=
  s.map Char.toLower

/-- Whether `pat` occurs at the very start of `s`. -/
def matchesAt : JStr → JStr → Bool
  | [], _ => true
  | _ :: _, [] => false
  | a :: as, b :: bs => a = b && matchesAt as bs

/-- JavaScript `s.includes(pat)`: `pat` occurs somewhere in `s`. -/
def hasSubstr (s pat : JStr) : Bool :=
  match s with
  | [] => matchesAt pat []
  | c :: rest => matchesAt pat (c :: rest) || hasSubstr rest pat

/-- Whether `pat` occurs at the very end of `s`. -/
def endsWithStr (s pat : JStr) : Bool :=
  matchesAt pat.reverse s.reverse

/-- The fixed allowed-extension set of `FormValidator.isValidImageUrl`. -/
def imageExtensions : List JStr :=
  [".jpg".toList, ".jpeg".toList, ".png".toList, ".gif".toList, ".webp".toList]

/-- `FormValidator.isValidImageUrl`: lowercase the whole URL and test
`imageExtensions.some(ext => url.includes(ext))` — a substring test over the
entire URL, not a suffix test over its path. -/
def isValidImageUrl (imageUrl : JStr) : Bool :=
  imageExtensions.any (fun ext => hasSubstr (toLowerStr imageUrl) ext)

/-- `FormValidator.validateImageUrl`, with the browser's `new URL(...)`
well-formedness check (`isValidUrl`) abstracted as a predicate parameter: an
empty or all-whitespace value gets the required message, then a syntactically
invalid URL gets the URL message, and only then is the extension check
consulted. -/
def validateImageUrl (urlValid : JStr → Bool) (imageUrl : Option JStr) :
    Option String :=
  match imageUrl with
  | none => some "Image URL is required"
  | some u =>
    if u.isEmpty || (jsTrim u).isEmpty then some "Image URL is required"
    else if !(urlValid u) then some "Image URL must be a valid URL"
    else if !(isValidImageUrl u) then
      some "Image URL must point to a valid image (jpg, png, gif, webp)"
    else none

/-- Everything after the `//` of a URL, for reading off the URL's path. -/
def dropThroughDoubleSlash : JStr → JStr
  | [] => []
  | '/' :: '/' :: rest => rest
  | _ :: rest => dropThroughDoubleSlash rest

/-- The path component of a URL: what stands after the host (from the first
`/` past the `scheme://` part) and before any query or fragment. -/
def urlPathOf (u : JStr) : JStr :=
  ((dropThroughDoubleSlash u).dropWhile (fun c => c ≠ '/')).takeWhile
    (fun c => c ≠ '?' && c ≠ '#')

/-- The extension check as the spec words it, for comparison with the
source's `isValidImageUrl`: the URL's path ends in one of the fixed allowed
extensions. -/
def specPathEndsInAllowedExt (u : JStr) : Bool :=
  imageExtensions.any (fun ext => endsWithStr (toLowerStr (urlPathOf u)) ext)

/-- A catalog product as `ProductSearch.getSuggestions` reads it: the three
name fields it consults, each possibly absent (`BrandName` stands for the
guarded `product.Brand && product.Brand.Name`). -/
structure SearchProduct where
  Name : Option JStr
  NameWithoutBrand : Option JStr
  BrandName : Option JStr
deriving DecidableEq, Repr

/-- One guard of `getSuggestions`: the field is present and truthy (a
non-empty string) and its lowercase form contains the search term. -/
def suggMatches (field : Option JStr) (term : JStr) : Bool :=
  match field with
  | none => false
  | some n => !n.isEmpty && hasSubstr (toLowerStr n) term

/-- `Set.prototype.add` on the insertion-ordered view of a JS `Set`. -/
def addToSet (acc : List JStr) (s : JStr) : List JStr :=
  if s ∈ acc then acc else acc ++ [s]

/-- The suggestion `Set` built by `getSuggestions`: for each product in
order, `Name`, then `Brand.Name`, then `NameWithoutBrand` is added when its
guard matches. -/
def collectSuggestions (term : JStr) (products : List SearchProduct) : List JStr :=
  products.foldl
    (fun acc p =>
      let acc1 := if suggMatches p.Name term then addToSet acc (p.Name.getD []) else acc
      let acc2 :=
        if suggMatches p.BrandName term then addToSet acc1 (p.BrandName.getD []) else acc1
      if suggMatches p.NameWithoutBrand term then addToSet acc2 (p.NameWithoutBrand.getD [])
      else acc2)
    []

/-- `ProductSearch.getSuggestions`: a falsy or shorter-than-2 partial gives
no suggestions; otherwise the search term is the lowercased, trimmed partial
and the deduplicated suggestion list is cut to `limit` by `slice(0, limit)`. -/
def getSuggestions (products : List SearchProduct) (query : Option JStr)
    (limit : Nat) : List JStr :=
  match query with
  | none => []
  | some s =>
    if s.isEmpty || s.length < 2 then []
    else (collectSuggestions (jsTrim (toLowerStr s)) products).take limit

/-- What C10 asserts of every returned suggestion: it is the `Name`,
`NameWithoutBrand` or `Brand.Name` of some listed product and contains the
search term case-insensitively. -/
def SuggestionFrom (products : List SearchProduct) (term : JStr) (s : JStr) : Prop :=
  ∃ p, p ∈ products
    ∧ (p.Name = some s ∨ p.NameWithoutBrand = some s ∨ p.BrandName = some s)
    ∧ hasSubstr (toLowerStr s) term = true

/-- An inventory record (`inventoryManager.mjs`).  `addProduct` builds the
record from the form fields and a generated id (`Date.now()` plus
`Math.random()`, both environment-supplied), so theorems take the built
record as a parameter; only identity matters to the persistence claims. -/
structure InvRecord where
  Id : JStr
deriving DecidableEq, Repr

/-- The `{success, message, product}` result of `InventoryManager.addProduct`. -/
structure InvResult where
  success : Bool
  message : String
  product : Option InvRecord
deriving DecidableEq, Repr

/-- The manager's state: the in-memory `this.inventory` array and the list
last successfully written to the key-value store. -/
structure InvState where
  inventory : List InvRecord
  persisted : List InvRecord
deriving DecidableEq, Repr

/-- `InventoryManager.saveToStorage` with the store's availability made
explicit: on success the full in-memory list is written and `true` returned;
on failure (quota exceeded and the like) the catch block returns `false` and
the store keeps its previous contents. -/
def saveToStorage (writeOk : Bool) (st : InvState) : Bool × InvState :=
  if writeOk then (true, { st with persisted := st.inventory }) else (false, st)

/-- `InventoryManager.addProduct`: push the new record onto `this.inventory`,
then `saveToStorage`; a failed save throws, and the catch block returns
`{success:false, message, product:null}` — the source has no statement that
removes the pushed record again, so the in-memory list keeps it. -/
def addProduct (st : InvState) (newProduct : InvRecord) (writeOk : Bool) :
    InvResult × InvState :=
  let pushed : InvState := { st with inventory := st.inventory ++ [newProduct] }
  match saveToStorage writeOk pushed with
  | (true, st2) =>
    ({ success := true, message := "Product added successfully!",
       product := some newProduct }, st2)
  | (false, st2) =>
    ({ success := false,
       message := "Error adding product: Failed to save to localStorage",
       product := none }, st2)

/-- The quantity a cart line carries (0 for an absent field; on well-formed
carts the field is always present). -/
def lineQuantity (item : CartItem) : Int :=
  item.Quantity.getD 0

/-- What the effect trace of a mutating cart call looks like: the full new
collection is persisted first, the persisted value does not depend on the
subscribers, and exactly the subscriber indices up to and including the first
throwing one are invoked, in order. -/
def TracedMutation (trace : List CartEffect) (newCart : List CartItem)
    (throws : List Bool) : Prop :=
  trace = CartEffect.persist newCart :: (invokedIndices throws 0).map CartEffect.invoke
  ∧ (∀ c, CartEffect.persist c ∈ trace ↔ c = newCart)
  ∧ (∀ j, CartEffect.invoke j ∈ trace ↔ j ∈ invokedIndices throws 0)

/-- C1: evaluation of `addProduct` at the failing input — starting from an
empty, consistent state, a persistence write failure yields
`{success:false, message, product:null}` as the claim says, but the freshly
appended record stays in the in-memory collection (`inventory = [newProduct]`,
not the pre-call `[]`), while the persisted list is unchanged: the in-memory
append is not rolled back. -/
theorem inventory_addProduct_no_rollback :
    (addProduct ⟨[], []⟩ ⟨"P1".toList⟩ false).1.success = false
    ∧ (addProduct ⟨[], []⟩ ⟨"P1".toList⟩ false).1.product = none
    ∧ (addProduct ⟨[], []⟩ ⟨"P1".toList⟩ false).2.persisted = []
    ∧ (addProduct ⟨[], []⟩ ⟨"P1".toList⟩ false).2.inventory = [⟨"P1".toList⟩]
    ∧ (addProduct ⟨[], []⟩ ⟨"P1".toList⟩ false).2.inventory ≠ ([] : List InvRecord) := by
  refine ⟨rfl, rfl, rfl, rfl, by decide⟩

/-- C2, counterexample: with two registered subscribers of which the first
throws, `addToCart` persists and invokes subscriber 0, but subscriber 1 —
later-registered and non-throwing — is never invoked (`forEach` propagates
the exception), refuting "a subscriber that throws neither prevents
later-registered subscribers from being invoked".  The second conjunct shows
subscriber 1 is invoked when subscriber 0 does not throw. -/
theorem cart_notify_throw_stops_later :
    CartEffect.invoke 1 ∉ addToCartEffects [] (some ⟨"A".toList, none, none, none⟩) [true, false]
    ∧ addToCartEffects [] (some ⟨"A".toList, none, none, none⟩) [false, false]
        = [CartEffect.persist [⟨"A".toList, some 1, none, none⟩],
           CartEffect.invoke 0, CartEffect.invoke 1] := by
  constructor
  · decide
  · rfl

/-- C6, counterexample: on a cart holding two lines with the same id (a
state the manager never produces, but one the persisted store can hold),
`updateQuantity` with quantity 0 splices out only the first matching line
while `removeFromCart` filters out both, so the two are not equivalent on
every cart state. -/
theorem cart_updateQuantity_duplicate_cex :
    updateQuantity [⟨"A".toList, some 1, none, none⟩, ⟨"A".toList, some 1, none, none⟩]
        ("A".toList) 0
      ≠ removeFromCart [⟨"A".toList, some 1, none, none⟩, ⟨"A".toList, some 1, none, none⟩]
        ("A".toList) := by
  decide

/-- C7, counterexample: on a line whose stored quantity is 0 (falsy in JS),
`addToCart` sets the quantity to `(0 || 1) + 1 = 2`, not to the line's
quantity plus one (which would be `0 + 1 = 1`): the increment is not always
"by exactly 1". -/
theorem cart_addToCart_zero_quantity_cex :
    addToCart [⟨"A".toList, some 0, none, none⟩] (some ⟨"A".toList, some 0, none, none⟩)
      = [⟨"A".toList, some 2, none, none⟩]
    ∧ addToCart [⟨"A".toList, some 0, none, none⟩] (some ⟨"A".toList, some 0, none, none⟩)
      ≠ [⟨"A".toList, some (0 + 1), none, none⟩] := by
  constructor
  · rfl
  · decide

/-- C4, counterexample: `"https://example.com/photo.jpg.html"` is a
well-formed URL whose path ends in `.html`, not in an allowed image
extension, yet the validator accepts it (no error is recorded) because
`isValidImageUrl` tests `url.includes(ext)` over the whole URL rather than a
suffix of its path. -/
theorem image_url_extension_substring_cex :
    validateImageUrl (fun _ => true) (some ("https://example.com/photo.jpg.html".toList)) = none
    ∧ specPathEndsInAllowedExt ("https://example.com/photo.jpg.html".toList) = false
    ∧ urlPathOf ("https://example.com/photo.jpg.html".toList) = "/photo.jpg.html".toList := by
  refine ⟨rfl, rfl, rfl⟩

theorem charDigitVal_of_isDigit {c : Char} (h : c.isDigit = true) :
    charDigitVal c = some (c.toNat - '0'.toNat) := by
  have hd : '0' ≤ c ∧ c ≤ '9' := by
    simp only [Char.isDigit, Bool.and_eq_true, decide_eq_true_eq] at h
    exact h
  simp [charDigitVal, hd]

theorem digitValsOf_all_digits (l : JStr) (h : l.all Char.isDigit = true) :
    digitValsOf l = some (l.map (fun c => c.toNat - '0'.toNat)) := by
  induction l with
  | nil => rfl
  | cons c rest ih =>
    simp only [List.all_cons, Bool.and_eq_true] at h
    simp [digitValsOf, charDigitVal_of_isDigit h.1, ih h.2]

/-- C3: `validateCardNumber` first strips whitespace; a cleaned length
outside 13–19 gets the (distinct) wrong-length message; at a valid length of
digits it returns `null` exactly when the alternating-doubling checksum is
divisible by 10 and the (distinct) checksum-failure message otherwise; the
known-good number `4532015112830366` passes and `4532015112830367` fails. -/
theorem checkout_luhn_card_validation :
    (∀ s : JStr, ((cleanedCard s).length < 13 ∨ 19 < (cleanedCard s).length) →
        validateCardNumber s = some "Credit card number must be 13-19 digits")
    ∧ (∀ s : JStr, 13 ≤ (cleanedCard s).length → (cleanedCard s).length ≤ 19 →
        (cleanedCard s).all Char.isDigit = true →
        ((validateCardNumber s = none ↔ luhnTotal (cardDigits s) % 10 = 0)
          ∧ (validateCardNumber s ≠ none →
              validateCardNumber s = some "Credit card number is invalid")))
    ∧ ("Credit card number must be 13-19 digits" : String)
        ≠ "Credit card number is invalid"
    ∧ validateCardNumber ("4532015112830366".toList) = none
    ∧ validateCardNumber ("4532015112830367".toList)
        = some "Credit card number is invalid" := by
  refine ⟨?_, ?_, by decide, rfl, rfl⟩
  · intro s h
    simp only [validateCardNumber]
    rw [if_pos h]
  · intro s h13 h19 hdig
    have hnot : ¬ ((cleanedCard s).length < 13 ∨ 19 < (cleanedCard s).length) := by
      omega
    have hvals := digitValsOf_all_digits (cleanedCard s) hdig
    have hform : validateCardNumber s
        = if luhnTotal (cardDigits s) % 10 = 0 then none
          else some "Credit card number is invalid" := by
      simp only [validateCardNumber]
      rw [if_neg hnot, hvals]
      rfl
    rw [hform]
    by_cases hl : luhnTotal (cardDigits s) % 10 = 0 <;> simp [hl]

theorem isDigit_ne_slash {c : Char} (h : c.isDigit = true) : c ≠ '/' := by
  intro e
  subst e
  exact absurd h (by decide)

theorem expiry_parse_some {s : JStr} (h : expiryPatternMatch s = true) :
    jsParseInt ((splitOnSlash s).headD []) = some (expiryMonth s)
    ∧ jsParseInt (((splitOnSlash s).drop 1).headD []) = some (expiryYear s) := by
  rcases s with _ | ⟨a, _ | ⟨b, _ | ⟨sl, _ | ⟨c, _ | ⟨d, _ | ⟨e, rest⟩⟩⟩⟩⟩⟩ <;>
    try exact Bool.noConfusion h
  simp only [expiryPatternMatch, Bool.and_eq_true, Bool.or_eq_true,
    decide_eq_true_eq] at h
  obtain ⟨⟨⟨hsl, hc⟩, hd⟩, hab⟩ := h
  subst hsl
  have ha : a.isDigit = true := by
    rcases hab with ⟨h1, _⟩ | ⟨h1, _⟩ <;> subst h1 <;> decide
  have hb : b.isDigit = true := by
    rcases hab with ⟨_, h1, _⟩ | ⟨_, h1⟩
    · exact h1
    · rcases h1 with (h1 | h1) | h1 <;> subst h1 <;> decide
  have hsplit : splitOnSlash [a, b, '/', c, d] = [[a, b], [c, d]] := by
    simp [splitOnSlash, isDigit_ne_slash ha, isDigit_ne_slash hb,
      isDigit_ne_slash hc, isDigit_ne_slash hd]
  have h1 : jsParseInt [a, b] ≠ none := by
    simp [jsParseInt, List.takeWhile_cons, ha, hb]
  have h2 : jsParseInt [c, d] ≠ none := by
    simp [jsParseInt, List.takeWhile_cons, hc, hd]
  obtain ⟨m, hm⟩ := Option.ne_none_iff_exists'.mp h1
  obtain ⟨y, hy⟩ := Option.ne_none_iff_exists'.mp h2
  constructor <;> simp [expiryMonth, expiryYear, hsplit, hm, hy]

/-- C5: for every string matching the strict MM/YY pattern, evaluated against
the current two-digit year and month, `validateExpiryDate` reports the card
expired exactly when the expiry year is earlier, or the year is equal and the
expiry month earlier; with "now" fixed at 2025-06, `"06/25"` (expires this
month) is valid and `"05/25"` is expired. -/
theorem checkout_expiry_validation :
    (∀ (currentYear currentMonth : Nat) (s : JStr), expiryPatternMatch s = true →
        (validateExpiryDate currentYear currentMonth s = some "Card has expired"
          ↔ (expiryYear s < currentYear
              ∨ (expiryYear s = currentYear ∧ expiryMonth s < currentMonth))))
    ∧ validateExpiryDate 25 6 ("06/25".toList) = none
    ∧ validateExpiryDate 25 6 ("05/25".toList) = some "Card has expired" := by
  refine ⟨?_, rfl, rfl⟩
  intro Y M s h
  obtain ⟨hm, hy⟩ := expiry_parse_some h
  simp only [validateExpiryDate, hm, hy]
  have hif : ∀ b : Bool,
      ((if b = true then some "Card has expired" else none) = some "Card has expired")
        ↔ b = true := by
    intro b
    cases b <;> simp
  rw [hif]
  simp

theorem jsOrNum_of_pos {q : Int} (h : 1 ≤ q) : jsOrNum (some q) 1 = q := by
  simp only [jsOrNum]
  rw [if_neg (by omega)]

theorem nodupIds_cons {item : CartItem} {rest : List CartItem}
    (h : ((item :: rest).map CartItem.Id).Nodup) :
    (∀ x ∈ rest, x.Id ≠ item.Id) ∧ (rest.map CartItem.Id).Nodup := by
  simp only [List.map_cons, List.nodup_cons, List.mem_map] at h
  exact ⟨fun x hx e => h.1 ⟨x, hx, e⟩, h.2⟩

theorem removeFromCart_of_absent {cart : List CartItem} {id : JStr}
    (h : ∀ x ∈ cart, x.Id ≠ id) : removeFromCart cart id = cart := by
  unfold removeFromCart
  rw [List.filter_eq_self]
  intro a ha
  simpa using h a ha

theorem updateQuantity_nonpos_eq_remove :
    ∀ (cart : List CartItem) (id : JStr) (qty : Int), qty ≤ 0 →
      (cart.map CartItem.Id).Nodup →
      updateQuantity cart id qty = removeFromCart cart id := by
  intro cart id qty hq
  induction cart with
  | nil => intro _; rfl
  | cons item rest ih =>
    intro hnd
    obtain ⟨hne, hnd2⟩ := nodupIds_cons hnd
    by_cases hid : item.Id = id
    · have hrest : removeFromCart rest id = rest :=
        removeFromCart_of_absent (fun x hx => by rw [← hid]; exact hne x hx)
      have hupd : updateQuantity (item :: rest) id qty = rest := by
        simp [updateQuantity, hid, hq]
      have hrem : removeFromCart (item :: rest) id = removeFromCart rest id := by
        unfold removeFromCart
        rw [List.filter_cons]
        simp [hid]
      rw [hupd, hrem, hrest]
    · have hupd : updateQuantity (item :: rest) id qty
          = item :: updateQuantity rest id qty := by
        simp [updateQuantity, hid]
      have hrem : removeFromCart (item :: rest) id = item :: removeFromCart rest id := by
        unfold removeFromCart
        rw [List.filter_cons]
        simp [hid]
      rw [hupd, hrem, ih hnd2]

theorem updateQuantity_overwrite :
    ∀ (pre post : List CartItem) (item : CartItem) (qty : Int), 1 ≤ qty →
      (∀ x ∈ pre, x.Id ≠ item.Id) →
      updateQuantity (pre ++ item :: post) item.Id qty
        = pre ++ { item with Quantity := some qty } :: post := by
  intro pre post item qty hq
  induction pre with
  | nil =>
    intro _
    have h1 : ¬ qty ≤ 0 := by omega
    simp [updateQuantity, h1]
  | cons a pre ih =>
    intro hpre
    have ha : a.Id ≠ item.Id := hpre a (by simp)
    simp only [List.cons_append, updateQuantity]
    rw [if_neg ha]
    exact congrArg (List.cons a) (ih (fun x hx => hpre x (by simp [hx])))

/-- C6, amended: on carts with at most one line per id (the only carts the
manager itself produces), `updateQuantity` with a non-positive quantity
coincides with `removeFromCart`; in general `updateQuantity` splices out only
the first line matching the id.  With a positive quantity and a line of the
given id present, that line's quantity is overwritten to exactly the given
value. -/
theorem cart_updateQuantity_remove_equiv :
    (∀ (cart : List CartItem) (id : JStr) (qty : Int),
        (cart.map CartItem.Id).Nodup → qty ≤ 0 →
        updateQuantity cart id qty = removeFromCart cart id)
    ∧ (∀ (pre post : List CartItem) (item : CartItem) (qty : Int),
        1 ≤ qty → (∀ x ∈ pre, x.Id ≠ item.Id) →
        updateQuantity (pre ++ item :: post) item.Id qty
          = pre ++ { item with Quantity := some qty } :: post) := by
  constructor
  · intro cart id qty hnd hq
    exact updateQuantity_nonpos_eq_remove cart id qty hq hnd
  · intro pre post item qty hq hpre
    exact updateQuantity_overwrite pre post item qty hq hpre

theorem incQuantityFirst_of_absent :
    ∀ (cart : List CartItem) (id : JStr), (∀ x ∈ cart, x.Id ≠ id) →
      incQuantityFirst id cart = none := by
  intro cart id
  induction cart with
  | nil => intro _; rfl
  | cons item rest ih =>
    intro h
    have h1 : item.Id ≠ id := h item (by simp)
    simp [incQuantityFirst, h1, ih (fun x hx => h x (by simp [hx]))]

theorem absent_of_incQuantityFirst_none :
    ∀ (cart : List CartItem) (id : JStr), incQuantityFirst id cart = none →
      ∀ x ∈ cart, x.Id ≠ id := by
  intro cart id
  induction cart with
  | nil => intro _ x hx; simp at hx
  | cons item rest ih =>
    intro h x hx
    by_cases h1 : item.Id = id
    · simp [incQuantityFirst, h1] at h
    · simp only [incQuantityFirst, if_neg h1] at h
      have h2 : incQuantityFirst id rest = none := by
        cases hrec : incQuantityFirst id rest with
        | none => rfl
        | some u => rw [hrec] at h; exact Option.noConfusion h
      rcases List.mem_cons.mp hx with hx | hx
      · subst hx; exact h1
      · exact ih h2 x hx

theorem incQuantityFirst_found :
    ∀ (pre : List CartItem) (item : CartItem) (post : List CartItem) (id : JStr),
      (∀ x ∈ pre, x.Id ≠ id) → item.Id = id →
      incQuantityFirst id (pre ++ item :: post)
        = some (pre ++ { item with Quantity := some (jsOrNum item.Quantity 1 + 1) } :: post) := by
  intro pre item post id
  induction pre with
  | nil => intro _ hit; simp [incQuantityFirst, hit]
  | cons a pre ih =>
    intro hpre hit
    have ha : a.Id ≠ id := hpre a (by simp)
    have hih := ih (fun x hx => hpre x (by simp [hx])) hit
    simp only [List.cons_append, incQuantityFirst, if_neg ha]
    exact (congrArg (Option.map fun r => a :: r) hih).trans rfl

/-- C7, amended: a falsy product leaves the cart unchanged; when a line with
the product's id exists (first match), no line is added and that line's
quantity becomes `(Quantity || 1) + 1` — an increment by exactly 1 whenever
the stored quantity is a present, nonzero value, but a jump to 2 when the
field is absent or 0; when no line matches, one new line with quantity 1 is
appended; hence two successive adds of the same id onto a cart not
containing it yield exactly one line of that id with quantity 2. -/
theorem cart_addToCart_behavior :
    (∀ cart : List CartItem, addToCart cart none = cart)
    ∧ (∀ (p item : CartItem) (pre post : List CartItem),
        (∀ x ∈ pre, x.Id ≠ p.Id) → item.Id = p.Id →
        addToCart (pre ++ item :: post) (some p)
          = pre ++ { item with Quantity := some (jsOrNum item.Quantity 1 + 1) } :: post)
    ∧ (∀ (q : Int) (item : CartItem), item.Quantity = some q → q ≠ 0 →
        jsOrNum item.Quantity 1 + 1 = q + 1)
    ∧ (∀ (p : CartItem) (cart : List CartItem), (∀ x ∈ cart, x.Id ≠ p.Id) →
        addToCart cart (some p) = cart ++ [{ p with Quantity := some 1 }])
    ∧ (∀ (p : CartItem) (cart : List CartItem), (∀ x ∈ cart, x.Id ≠ p.Id) →
        addToCart (addToCart cart (some p)) (some p)
          = cart ++ [{ p with Quantity := some 2 }]) := by
  have habsent : ∀ (p : CartItem) (cart : List CartItem), (∀ x ∈ cart, x.Id ≠ p.Id) →
      addToCart cart (some p) = cart ++ [{ p with Quantity := some 1 }] := by
    intro p cart h
    simp [addToCart, incQuantityFirst_of_absent cart p.Id h]
  have hfound : ∀ (p item : CartItem) (pre post : List CartItem),
      (∀ x ∈ pre, x.Id ≠ p.Id) → item.Id = p.Id →
      addToCart (pre ++ item :: post) (some p)
        = pre ++ { item with Quantity := some (jsOrNum item.Quantity 1 + 1) } :: post := by
    intro p item pre post hpre hit
    simp [addToCart, incQuantityFirst_found pre item post p.Id hpre hit]
  refine ⟨fun _ => rfl, hfound, ?_, habsent, ?_⟩
  · intro q item hq hq0
    rw [hq]
    simp only [jsOrNum]
    rw [if_neg hq0]
  · intro p cart h
    rw [habsent p cart h]
    have h2 := hfound p { p with Quantity := some 1 } cart [] h rfl
    rw [h2]
    have : jsOrNum (some 1) 1 + 1 = (2 : Int) := by decide
    simp [this]

theorem incQuantityFirst_ids :
    ∀ (cart : List CartItem) (u : List CartItem) (id : JStr),
      incQuantityFirst id cart = some u →
      u.map CartItem.Id = cart.map CartItem.Id := by
  intro cart
  induction cart with
  | nil => intro u id h; exact Option.noConfusion h
  | cons item rest ih =>
    intro u id h
    by_cases h1 : item.Id = id
    · simp only [incQuantityFirst, if_pos h1, Option.some_inj] at h
      subst h
      simp
    · simp only [incQuantityFirst, if_neg h1] at h
      cases hrec : incQuantityFirst id rest with
      | none => rw [hrec] at h; exact Option.noConfusion h
      | some r =>
        rw [hrec] at h
        have h2 : item :: r = u := Option.some.inj h
        subst h2
        simp [ih r id hrec]

theorem incQuantityFirst_wf_items :
    ∀ (cart : List CartItem) (u : List CartItem) (id : JStr),
      incQuantityFirst id cart = some u → (∀ x ∈ cart, WellFormedItem x) →
      ∀ x ∈ u, WellFormedItem x := by
  intro cart
  induction cart with
  | nil => intro u id h; exact Option.noConfusion h
  | cons item rest ih =>
    intro u id h hwf
    by_cases h1 : item.Id = id
    · simp only [incQuantityFirst, if_pos h1, Option.some_inj] at h
      subst h
      intro x hx
      rcases List.mem_cons.mp hx with hx | hx
      · subst hx
        obtain ⟨q, hq, hq1⟩ := hwf item (by simp)
        rw [hq]
        exact ⟨q + 1, by rw [jsOrNum_of_pos hq1], by omega⟩
      · exact hwf x (by simp [hx])
    · simp only [incQuantityFirst, if_neg h1] at h
      cases hrec : incQuantityFirst id rest with
      | none => rw [hrec] at h; exact Option.noConfusion h
      | some r =>
        rw [hrec] at h
        have h2 : item :: r = u := Option.some.inj h
        subst h2
        intro x hx
        rcases List.mem_cons.mp hx with hx | hx
        · rw [hx]; exact hwf item (by simp)
        · exact ih r id hrec (fun y hy => hwf y (by simp [hy])) x hx

theorem updateQuantity_ids_sublist :
    ∀ (cart : List CartItem) (id : JStr) (qty : Int),
      ((updateQuantity cart id qty).map CartItem.Id).Sublist (cart.map CartItem.Id) := by
  intro cart id qty
  induction cart with
  | nil => simp [updateQuantity]
  | cons item rest ih =>
    by_cases h1 : item.Id = id
    · by_cases h2 : qty ≤ 0
      · simp only [updateQuantity, if_pos h1, if_pos h2, List.map_cons]
        exact List.sublist_cons_self _ _
      · simp only [updateQuantity, if_pos h1, if_neg h2, List.map_cons]
        exact List.Sublist.refl _
    · simp only [updateQuantity, if_neg h1, List.map_cons]
      exact ih.cons₂ _

theorem wf_addToCart (cart : List CartItem) (p : Option CartItem)
    (h : WellFormedCart cart) : WellFormedCart (addToCart cart p) := by
  obtain ⟨hitems, hnd⟩ := h
  cases p with
  | none => exact ⟨hitems, hnd⟩
  | some p =>
    cases hinc : incQuantityFirst p.Id cart with
    | some u =>
      have hform : addToCart cart (some p) = u := by simp [addToCart, hinc]
      rw [hform]
      exact ⟨incQuantityFirst_wf_items cart u p.Id hinc hitems,
        by rw [incQuantityFirst_ids cart u p.Id hinc]; exact hnd⟩
    | none =>
      have habs := absent_of_incQuantityFirst_none cart p.Id hinc
      have hform : addToCart cart (some p) = cart ++ [{ p with Quantity := some 1 }] := by
        simp [addToCart, hinc]
      rw [hform]
      constructor
      · intro x hx
        rcases List.mem_append.mp hx with hx | hx
        · exact hitems x hx
        · simp only [List.mem_singleton] at hx
          subst hx
          exact ⟨1, rfl, le_refl 1⟩
      · rw [List.map_append]
        rw [List.nodup_append]
        refine ⟨hnd, by simp, ?_⟩
        intro a ha hb
        simp only [List.map_cons, List.map_nil, List.mem_singleton] at hb
        obtain ⟨x, hx, he⟩ := List.mem_map.mp ha
        exact habs x hx (by rw [he, hb])

theorem wf_removeFromCart (cart : List CartItem) (id : JStr)
    (h : WellFormedCart cart) : WellFormedCart (removeFromCart cart id) := by
  obtain ⟨hitems, hnd⟩ := h
  constructor
  · intro x hx
    exact hitems x (List.mem_of_mem_filter hx)
  · exact hnd.sublist ((List.filter_sublist cart).map CartItem.Id)

theorem wf_updateQuantity :
    ∀ (cart : List CartItem) (id : JStr) (qty : Int),
      WellFormedCart cart → WellFormedCart (updateQuantity cart id qty) := by
  intro cart id qty
  induction cart with
  | nil => intro h; exact h
  | cons item rest ih =>
    intro h
    obtain ⟨hitems, hnd⟩ := h
    obtain ⟨hne, hnd2⟩ := nodupIds_cons hnd
    have hrest : ∀ x ∈ rest, WellFormedItem x := fun x hx => hitems x (by simp [hx])
    by_cases h1 : item.Id = id
    · by_cases h2 : qty ≤ 0
      · have hform : updateQuantity (item :: rest) id qty = rest := by
          simp [updateQuantity, h1, h2]
        rw [hform]
        exact ⟨hrest, hnd2⟩
      · have hform : updateQuantity (item :: rest) id qty
            = { item with Quantity := some qty } :: rest := by
          simp [updateQuantity, h1, h2]
        rw [hform]
        constructor
        · intro x hx
          rcases List.mem_cons.mp hx with hx | hx
          · subst hx; exact ⟨qty, rfl, by omega⟩
          · exact hrest x hx
        · exact hnd
    · have hform : updateQuantity (item :: rest) id qty
          = item :: updateQuantity rest id qty := by
        simp [updateQuantity, h1]
      rw [hform]
      obtain ⟨ihitems, ihnd⟩ := ih ⟨hrest, hnd2⟩
      constructor
      · intro x hx
        rcases List.mem_cons.mp hx with hx | hx
        · rw [hx]; exact hitems item (by simp)
        · exact ihitems x hx
      · simp only [List.map_cons, List.nodup_cons]
        refine ⟨?_, ihnd⟩
        intro hmem
        have hmem2 := (updateQuantity_ids_sublist rest id qty).subset hmem
        simp only [List.map_cons, List.nodup_cons] at hnd
        exact hnd.1 hmem2

theorem wellFormed_empty : WellFormedCart [] := ⟨by simp, by simp⟩

theorem wf_applyCartOp (cart : List CartItem) (op : CartOp)
    (h : WellFormedCart cart) : WellFormedCart (applyCartOp cart op) := by
  cases op with
  | add p => exact wf_addToCart cart p h
  | remove id => exact wf_removeFromCart cart id h
  | update id q => exact wf_updateQuantity cart id q h
  | clear => exact wellFormed_empty

theorem wellFormed_foldl :
    ∀ (ops : List CartOp) (cart : List CartItem), WellFormedCart cart →
      WellFormedCart (ops.foldl applyCartOp cart) := by
  intro ops
  induction ops with
  | nil => intro cart h; exact h
  | cons op ops ih =>
    intro cart h
    exact ih _ (wf_applyCartOp cart op h)

/-- C8: starting from the empty cart, after every finite sequence of
`addToCart`, `removeFromCart`, `updateQuantity` and `clearCart` calls, every
line of the cart carries a quantity ≥ 1 and the cart holds at most one line
per id. -/
theorem cart_reachable_wellformed : ∀ ops : List CartOp, WellFormedCart (runCartOps ops) :=
  fun ops => wellFormed_foldl ops [] wellFormed_empty

theorem foldl_add_eq_sum (f : CartItem → Int) :
    ∀ (l : List CartItem) (a : Int),
      l.foldl (fun acc i => acc + f i) a = a + (l.map f).sum := by
  intro l
  induction l with
  | nil => intro a; simp
  | cons x xs ih =>
    intro a
    simp only [List.foldl_cons, List.map_cons, List.sum_cons, ih]
    omega

theorem jsOrNum_quantity_eq_lineQuantity {item : CartItem} (h : WellFormedItem item) :
    jsOrNum item.Quantity 1 = lineQuantity item := by
  obtain ⟨q, hq, h1⟩ := h
  rw [lineQuantity, hq, jsOrNum_of_pos h1]
  rfl

theorem getItemCount_eq_sum {cart : List CartItem}
    (h : ∀ item ∈ cart, WellFormedItem item) :
    getItemCount cart = (cart.map lineQuantity).sum := by
  have h0 : getItemCount cart
      = 0 + (cart.map (fun i => jsOrNum i.Quantity 1)).sum :=
    foldl_add_eq_sum (fun i => jsOrNum i.Quantity 1) cart 0
  rw [h0, zero_add]
  congr 1
  exact List.map_congr_left (fun a ha => jsOrNum_quantity_eq_lineQuantity (h a ha))

theorem getCartTotal_eq_sum {cart : List CartItem}
    (h : ∀ item ∈ cart, WellFormedItem item) :
    getCartTotal cart = (cart.map (fun item => itemPrice item * lineQuantity item)).sum := by
  have h0 : getCartTotal cart
      = 0 + (cart.map (fun i => itemPrice i * jsOrNum i.Quantity 1)).sum :=
    foldl_add_eq_sum (fun i => itemPrice i * jsOrNum i.Quantity 1) cart 0
  rw [h0, zero_add]
  congr 1
  refine List.map_congr_left (fun a ha => ?_)
  rw [jsOrNum_quantity_eq_lineQuantity (h a ha)]

/-- C9: on every cart reachable from the empty cart by manager operations,
`getItemCount` is the sum of the line quantities (a single line of quantity 3
counts as 3) and `getCartTotal` is the sum over lines of effective unit price
times quantity, with a missing price read as 0 (`itemPrice` is 0 when both
price fields are absent); both are 0 on the empty cart, and both are total
functions of the cart (no exception path). -/
theorem cart_count_total_consistency :
    (∀ ops : List CartOp,
        getItemCount (runCartOps ops) = ((runCartOps ops).map lineQuantity).sum
        ∧ getCartTotal (runCartOps ops)
            = ((runCartOps ops).map (fun item => itemPrice item * lineQuantity item)).sum)
    ∧ getItemCount [] = 0
    ∧ getCartTotal [] = 0
    ∧ (∀ item : CartItem, item.FinalPrice = none → item.Price = none → itemPrice item = 0) := by
  refine ⟨?_, rfl, rfl, ?_⟩
  · intro ops
    have hwf := wellFormed_foldl ops [] wellFormed_empty
    exact ⟨getItemCount_eq_sum hwf.1, getCartTotal_eq_sum hwf.1⟩
  · intro item h1 h2
    rw [itemPrice, h1, h2]
    rfl

theorem mem_invokedIndices :
    ∀ (throws : List Bool) (start j : Nat),
      j ∈ invokedIndices throws start
        ↔ ∃ k, j = start + k ∧ k < throws.length ∧ ∀ i, i < k → throws.get? i ≠ some true := by
  intro throws
  induction throws with
  | nil =>
    intro start j
    simp [invokedIndices]
  | cons b rest ih =>
    intro start j
    cases b with
    | true =>
      simp only [invokedIndices, if_true, List.mem_singleton]
      constructor
      · intro hj
        exact ⟨0, by omega, by simp, by omega⟩
      · rintro ⟨k, hjk, hk, hall⟩
        cases k with
        | zero => omega
        | succ k2 =>
          exact absurd (rfl : (true :: rest).get? 0 = some true) (hall 0 (by omega))
    | false =>
      simp only [invokedIndices, if_false]
      constructor
      · intro hj
        rcases List.mem_cons.mp hj with hj | hj
        · exact ⟨0, by omega, by simp, by omega⟩
        · obtain ⟨k, hjk, hk, hall⟩ := (ih (start + 1) j).mp hj
          refine ⟨k + 1, by omega, by simp only [List.length_cons]; omega, ?_⟩
          intro i hi
          cases i with
          | zero => simp
          | succ i2 => simpa using hall i2 (by omega)
      · rintro ⟨k, hjk, hk, hall⟩
        cases k with
        | zero =>
          apply List.mem_cons.mpr
          left
          omega
        | succ k2 =>
          apply List.mem_cons.mpr
          right
          apply (ih (start + 1) j).mpr
          refine ⟨k2, by omega, by simpa using hk, ?_⟩
          intro i hi
          simpa using hall (i + 1) (by omega)

theorem invokedIndices_ge :
    ∀ (throws : List Bool) (start j : Nat), j ∈ invokedIndices throws start → start ≤ j := by
  intro throws
  induction throws with
  | nil => intro start j h; simp [invokedIndices] at h
  | cons b rest ih =>
    intro start j h
    simp only [invokedIndices] at h
    rcases List.mem_cons.mp h with h | h
    · omega
    · cases b with
      | true => simp at h
      | false =>
        have := ih (start + 1) j (by simpa using h)
        omega

theorem invokedIndices_pairwise :
    ∀ (throws : List Bool) (start : Nat), (invokedIndices throws start).Pairwise (· < ·) := by
  intro throws
  induction throws with
  | nil => intro start; simp [invokedIndices]
  | cons b rest ih =>
    intro start
    simp only [invokedIndices]
    cases b with
    | true => simp
    | false =>
      rw [if_neg (by simp)]
      refine List.Pairwise.cons ?_ (ih (start + 1))
      intro j hj
      have := invokedIndices_ge rest (start + 1) j hj
      omega

theorem tracedMutation_of_save_notify (newCart : List CartItem) (throws : List Bool) :
    TracedMutation (saveCartEffects newCart ++ notifyListenersEffects throws) newCart throws := by
  refine ⟨rfl, ?_, ?_⟩
  · intro c
    simp only [saveCartEffects, notifyListenersEffects, List.singleton_append]
    constructor
    · intro hc
      rcases List.mem_cons.mp hc with h | h
      · injection h with h2
      · obtain ⟨i, _, hbad⟩ := List.mem_map.mp h
        exact CartEffect.noConfusion hbad
    · intro h
      rw [h]
      exact List.mem_cons_self _ _
  · intro j
    simp only [saveCartEffects, notifyListenersEffects, List.singleton_append]
    constructor
    · intro hc
      rcases List.mem_cons.mp hc with h | h
      · exact CartEffect.noConfusion h
      · obtain ⟨i, hi, he⟩ := List.mem_map.mp h
        injection he with he2
        rwa [← he2]
    · intro h
      exact List.mem_cons_of_mem _ (List.mem_map.mpr ⟨j, h, rfl⟩)

/-- C2, amended: every mutating cart call persists the full new collection
first, before any subscriber runs, and the persisted value does not depend on
the subscribers; subscribers are invoked in registration order; a subscriber
that throws stops the iteration — exactly the subscribers before it and the
thrower itself are invoked, and later-registered subscribers are NOT invoked
(the exception propagates out of `forEach`) — while the already-written
persisted collection is unchanged by the throw.  A falsy product makes
`addToCart` return early with no persist and no notification. -/
theorem cart_persist_then_notify :
    (∀ (cart : List CartItem) (p : CartItem) (throws : List Bool),
        TracedMutation (addToCartEffects cart (some p) throws) (addToCart cart (some p)) throws)
    ∧ (∀ (cart : List CartItem) (throws : List Bool), addToCartEffects cart none throws = [])
    ∧ (∀ (cart : List CartItem) (id : JStr) (throws : List Bool),
        TracedMutation (removeFromCartEffects cart id throws) (removeFromCart cart id) throws)
    ∧ (∀ (cart : List CartItem) (id : JStr) (qty : Int) (throws : List Bool),
        TracedMutation (updateQuantityEffects cart id qty throws) (updateQuantity cart id qty) throws)
    ∧ (∀ throws : List Bool, TracedMutation (clearCartEffects throws) clearCart throws)
    ∧ (∀ (throws : List Bool) (j : Nat),
        j ∈ invokedIndices throws 0
          ↔ j < throws.length ∧ ∀ i, i < j → throws.get? i ≠ some true)
    ∧ (∀ throws : List Bool, (invokedIndices throws 0).Pairwise (· < ·)) := by
  refine ⟨fun cart p throws => tracedMutation_of_save_notify _ throws,
    fun _ _ => rfl,
    fun cart id throws => tracedMutation_of_save_notify _ throws,
    fun cart id qty throws => tracedMutation_of_save_notify _ throws,
    fun throws => tracedMutation_of_save_notify _ throws,
    ?_, fun throws => invokedIndices_pairwise throws 0⟩
  intro throws j
  rw [mem_invokedIndices throws 0 j]
  constructor
  · rintro ⟨k, hjk, hk, hall⟩
    exact ⟨by omega, fun i hi => hall i (by omega)⟩
  · rintro ⟨hlen, hall⟩
    exact ⟨j, by omega, hlen, fun i hi => hall i (by omega)⟩

/-- C4, amended: for a non-empty image-URL value, a syntactically invalid URL
(per the abstract `urlValid` predicate standing for the browser's
`new URL(...)`) records the URL-format error and the extension check never
runs; for a syntactically valid URL, the extension check passes exactly when
the lowercased URL CONTAINS one of {.jpg, .jpeg, .png, .gif, .webp} as a
substring anywhere — not only when the URL's path ends in one of them. -/
theorem image_url_extension_check :
    ∀ (urlValid : JStr → Bool) (u : JStr), (jsTrim u).isEmpty = false →
      (urlValid u = false →
        validateImageUrl urlValid (some u) = some "Image URL must be a valid URL")
      ∧ (urlValid u = true →
          (validateImageUrl urlValid (some u)
              = some "Image URL must point to a valid image (jpg, png, gif, webp)"
            ↔ isValidImageUrl u = false)
          ∧ (validateImageUrl urlValid (some u) = none ↔ isValidImageUrl u = true)) := by
  intro urlValid u htrim
  have hue : u.isEmpty = false := by
    cases u with
    | nil => simp [jsTrim] at htrim
    | cons a l => rfl
  constructor
  · intro hv
    simp [validateImageUrl, hue, htrim, hv]
  · intro hv
    cases himg : isValidImageUrl u <;>
      simp [validateImageUrl, hue, htrim, hv, himg]

theorem addToSet_nodup {acc : List JStr} {s : JStr} (h : acc.Nodup) :
    (addToSet acc s).Nodup := by
  by_cases hs : s ∈ acc
  · rw [addToSet, if_pos hs]
    exact h
  · rw [addToSet, if_neg hs]
    rw [List.nodup_append]
    refine ⟨h, by simp, fun a ha hb => ?_⟩
    simp only [List.mem_singleton] at hb
    exact hs (hb ▸ ha)

theorem mem_addToSet {acc : List JStr} {s x : JStr} (h : x ∈ addToSet acc s) :
    x ∈ acc ∨ x = s := by
  by_cases hs : s ∈ acc
  · rw [addToSet, if_pos hs] at h
    exact Or.inl h
  · rw [addToSet, if_neg hs] at h
    rcases List.mem_append.mp h with h | h
    · exact Or.inl h
    · simp only [List.mem_singleton] at h
      exact Or.inr h

theorem image_url_extension_check_witness :
    validateImageUrl (fun _ => true) (some ("https://x/a.jpg".toList)) = none :=
  ((image_url_extension_check (fun _ => true) ("https://x/a.jpg".toList) rfl).2 rfl).2.mpr rfl

theorem suggStep_one (term : JStr) (field : Option JStr) (Q : JStr → Prop)
    (hQ : ∀ n, field = some n → hasSubstr (toLowerStr n) term = true → Q n)
    (acc : List JStr) (hnd : acc.Nodup) (hmem : ∀ s ∈ acc, Q s) :
    (if suggMatches field term then addToSet acc (field.getD []) else acc).Nodup
    ∧ ∀ s ∈ (if suggMatches field term then addToSet acc (field.getD []) else acc), Q s := by
  by_cases hm : suggMatches field term = true
  · rw [if_pos hm]
    cases field with
    | none => simp [suggMatches] at hm
    | some n =>
      simp only [suggMatches, Bool.and_eq_true] at hm
      refine ⟨addToSet_nodup hnd, ?_⟩
      intro s hs
      rcases mem_addToSet hs with hs | hs
      · exact hmem s hs
      · rw [hs]
        exact hQ n rfl hm.2
  · rw [if_neg hm]
    exact ⟨hnd, hmem⟩

theorem collect_fold_good (term : JStr) (products : List SearchProduct) :
    ∀ ps : List SearchProduct, (∀ p ∈ ps, p ∈ products) →
      ∀ acc : List JStr, acc.Nodup → (∀ s ∈ acc, SuggestionFrom products term s) →
      (ps.foldl
        (fun acc p =>
          let acc1 := if suggMatches p.Name term then addToSet acc (p.Name.getD []) else acc
          let acc2 :=
            if suggMatches p.BrandName term then addToSet acc1 (p.BrandName.getD []) else acc1
          if suggMatches p.NameWithoutBrand term then addToSet acc2 (p.NameWithoutBrand.getD [])
          else acc2)
        acc).Nodup
      ∧ ∀ s ∈ (ps.foldl
          (fun acc p =>
            let acc1 := if suggMatches p.Name term then addToSet acc (p.Name.getD []) else acc
            let acc2 :=
              if suggMatches p.BrandName term then addToSet acc1 (p.BrandName.getD []) else acc1
            if suggMatches p.NameWithoutBrand term then addToSet acc2 (p.NameWithoutBrand.getD [])
            else acc2)
          acc), SuggestionFrom products term s := by
  intro ps
  induction ps with
  | nil => intro _ acc hnd hmem; exact ⟨hnd, hmem⟩
  | cons p ps ih =>
    intro hsub acc hnd hmem
    have hp : p ∈ products := hsub p (by simp)
    obtain ⟨hnd1, hmem1⟩ :=
      suggStep_one term p.Name (SuggestionFrom products term)
        (fun n hn hsubstr => ⟨p, hp, Or.inl hn, hsubstr⟩) acc hnd hmem
    obtain ⟨hnd2, hmem2⟩ :=
      suggStep_one term p.BrandName (SuggestionFrom products term)
        (fun n hn hsubstr => ⟨p, hp, Or.inr (Or.inr hn), hsubstr⟩) _ hnd1 hmem1
    obtain ⟨hnd3, hmem3⟩ :=
      suggStep_one term p.NameWithoutBrand (SuggestionFrom products term)
        (fun n hn hsubstr => ⟨p, hp, Or.inr (Or.inl hn), hsubstr⟩) _ hnd2 hmem2
    simp only [List.foldl_cons]
    exact ih (fun q hq => hsub q (by simp [hq])) _ hnd3 hmem3

theorem collectSuggestions_good (term : JStr) (products : List SearchProduct) :
    (collectSuggestions term products).Nodup
    ∧ ∀ s ∈ collectSuggestions term products, SuggestionFrom products term s :=
  collect_fold_good term products products (fun _ hp => hp) [] (by simp) (by simp)

/-- C10: `getSuggestions` returns nothing for a missing partial or one
shorter than 2 characters, whatever the product set; otherwise it returns at
most `limit` pairwise-distinct strings, each a product `Name`,
`NameWithoutBrand` or `Brand.Name` that contains the lowercased, trimmed
partial as a substring (case-insensitively). -/
theorem search_suggestions_spec :
    (∀ (products : List SearchProduct) (limit : Nat),
        getSuggestions products none limit = [])
    ∧ (∀ (products : List SearchProduct) (limit : Nat) (s : JStr), s.length < 2 →
        getSuggestions products (some s) limit = [])
    ∧ (∀ (products : List SearchProduct) (limit : Nat) (s : JStr),
        (getSuggestions products (some s) limit).length ≤ limit)
    ∧ (∀ (products : List SearchProduct) (limit : Nat) (s : JStr),
        (getSuggestions products (some s) limit).Nodup)
    ∧ (∀ (products : List SearchProduct) (limit : Nat) (s : JStr) (sugg : JStr),
        sugg ∈ getSuggestions products (some s) limit →
        SuggestionFrom products (jsTrim (toLowerStr s)) sugg) := by
  refine ⟨fun _ _ => rfl, ?_, ?_, ?_, ?_⟩
  · intro products limit s h
    simp [getSuggestions, h]
  · intro products limit s
    simp only [getSuggestions]
    split
    · simp
    · exact List.length_take_le limit _
  · intro products limit s
    simp only [getSuggestions]
    split
    · simp
    · exact ((collectSuggestions_good _ products).1).sublist (List.take_sublist _ _)
  · intro products limit s sugg hs
    simp only [getSuggestions] at hs
    split at hs
    · simp at hs
    · exact (collectSuggestions_good _ products).2 sugg (List.mem_of_mem_take hs)
